import Mathlib

set_option maxHeartbeats 1000000

/-!
Verification development for the sampled wolfSSL material.

Part 1 embeds the Xilinx hardware-offload AES-GCM wrapper
(wolfcrypt/src/port/xilinx/xil-aesgcm.c).  Bytes are modelled as `Nat`,
C pointers that may be NULL as `Option`, and the external collaborators
(the Xilinx hardened-crypto calls, `GHASH`, `wc_AesEncryptDirect`) as an
explicit record of opaque-but-computable functions, since the source calls
them as black boxes.

Part 2 models the passive TLS sniffer engine (stream reassembler, session
table with recovery policy, key store, telemetry, store-data delivery),
whose implementation is not part of the sampled sources: only the
declaration header `sniffer.h` is.  Those definitions are built from the
specification's wording and are marked as such.
-/

/-- Error code from wolfssl error-crypt.h (declaration only in the sampled
sources); value as in wolfSSL. -/
def BAD_FUNC_ARG : Int := -173

/-- Error code from wolfssl error-crypt.h; value as in wolfSSL. -/
def MEMORY_E : Int := -125

/-- Error code from wolfssl error-crypt.h; value as in wolfSSL. -/
def AES_GCM_AUTH_E : Int := -180

/-- AEAD_NONCE_SZ from xil-aesgcm.c. -/
def AEAD_NONCE_SZ : Nat := 12

/-- AES_GCM_AUTH_SZ from xil-aesgcm.c. -/
def AES_GCM_AUTH_SZ : Nat := 16

/-- AES_BLOCK_SIZE from wolfssl aes.h. -/
def AES_BLOCK_SIZE : Nat := 16

/-- The fields of the C `Aes` struct that xil-aesgcm.c reads or writes.
The DMA/hardware handles carry no data relevant to the embedded code. -/
structure Aes where
  keylen : Nat
  kup : Nat
  key_init : List Nat
deriving DecidableEq, Repr

/-- External collaborators called by xil-aesgcm.c, passed explicitly:
`hwEncrypt` is XSecure_AesEncryptData (returns ciphertext plus 16-byte tag),
`hwDecrypt` is XSecure_AesDecryptData, `ghash` is GHASH (authIn, cipher text
and requested tag size to tag bytes), `encryptDirect` is wc_AesEncryptDirect
which can fail with a negative code. -/
structure HwOps where
  hwEncrypt : Aes → List Nat → List Nat → List Nat
  hwDecrypt : Aes → List Nat → List Nat → List Nat → List Nat
  ghash : Aes → List Nat → List Nat → Nat → List Nat
  encryptDirect : Aes → List Nat → Except Int (List Nat)

/-- The `initalCounter` local of xil-aesgcm.c (source spelling kept):
16 zero bytes, the 12 IV bytes copied in front, last byte set to 1. -/
def initalCounter (ivb : List Nat) : List Nat :=
  ivb.take 12 ++ [0, 0, 0, 1]

/-- The wolfCrypt `xorbuf` call on the first `n` bytes of two buffers. -/
def xorbuf (a b : List Nat) (n : Nat) : List Nat :=
  List.zipWith Nat.xor (a.take n) (b.take n)

/-- The wolfCrypt `ConstantCompare` call: 0 when the first `n` bytes agree,
nonzero otherwise. -/
def ConstantCompare (a b : List Nat) (n : Nat) : Nat :=
  if a.take n = b.take n then 0 else 1

/-- wc_AesGcmSetKey_ex from xil-aesgcm.c.  `aes` and `key` are NULL-able
pointers; `lookupOk` models XCsuDma_LookupConfig returning non-NULL and
`cfgOk` models XCsuDma_CfgInitialize returning XST_SUCCESS.  Returns the C
return value together with the state of the `Aes` struct after the call. -/
def wc_AesGcmSetKey_ex (aes : Option Aes) (key : Option (List Nat))
    (len kup : Nat) (lookupOk cfgOk : Bool) : Int × Option Aes :=
  match aes, key with
  | none, _ => (BAD_FUNC_ARG, aes)
  | some a, none => (BAD_FUNC_ARG, some a)
  | some a, some k =>
    if len ≠ 32 then (BAD_FUNC_ARG, some a)
    else if ¬ lookupOk then (MEMORY_E, some a)
    else if ¬ cfgOk then (MEMORY_E, some a)
    else (0, some { a with keylen := len, kup := kup, key_init := k.take len })

/-- wc_AesGcmEncrypt from xil-aesgcm.c.  The `in` buffer carries its size as
its length; `authTag0` is the caller's (output) authTag buffer, kept so the
`in == NULL` path can leave it untouched; `mallocOk` models XMALLOC success.
Returns (return value, out buffer, authTag buffer). -/
def wc_AesGcmEncrypt (ops : HwOps) (aes : Aes) (inBuf : Option (List Nat))
    (iv : Option (List Nat)) (ivSz : Nat)
    (authTag0 : Option (List Nat)) (authTagSz : Nat)
    (authIn : Option (List Nat)) (mallocOk : Bool) : Int × List Nat × List Nat :=
  let sz := (inBuf.getD []).length
  if (inBuf.isNone && decide (0 < sz)) || iv.isNone || authTag0.isNone
      || decide (AES_GCM_AUTH_SZ < authTagSz) then
    (BAD_FUNC_ARG, [], [])
  else if ivSz ≠ AEAD_NONCE_SZ then
    (BAD_FUNC_ARG, [], [])
  else
    let ivb := iv.getD []
    let step1 : Except Int (List Nat × List Nat) :=
      match inBuf with
      | some inb =>
        if aes.keylen ≠ 32 then Except.error BAD_FUNC_ARG
        else if ¬ mallocOk then Except.error MEMORY_E
        else
          let tmp := ops.hwEncrypt aes ivb inb
          Except.ok (tmp.take sz, (tmp.drop sz).take authTagSz)
      | none => Except.ok ([], (authTag0.getD []).take authTagSz)
    match step1 with
    | Except.error e => (e, [], [])
    | Except.ok (outB, tag1) =>
      match authIn with
      | some aad =>
        let t := ops.ghash aes aad outB authTagSz
        match ops.encryptDirect aes (initalCounter ivb) with
        | Except.error e => (e, outB, t)
        | Except.ok scratch => (0, outB, xorbuf t scratch authTagSz)
      | none => (0, outB, tag1)

/-- wc_AesGcmDecrypt from xil-aesgcm.c.  Returns (return value, out buffer,
flag recording whether the software `ConstantCompare` tag check executed). -/
def wc_AesGcmDecrypt (ops : HwOps) (aes : Aes) (inBuf : Option (List Nat))
    (iv : Option (List Nat)) (ivSz : Nat)
    (authTag : Option (List Nat)) (authTagSz : Nat)
    (authIn : Option (List Nat)) (authInSz : Nat) : Int × List Nat × Bool :=
  if inBuf.isNone || iv.isNone || authTag.isNone
      || decide (authTagSz < AES_GCM_AUTH_SZ) then
    (BAD_FUNC_ARG, [], false)
  else if ivSz ≠ AEAD_NONCE_SZ then
    (BAD_FUNC_ARG, [], false)
  else
    let inb := inBuf.getD []
    let ivb := iv.getD []
    let atag := authTag.getD []
    let aad := authIn.isSome && decide (0 < authInSz)
    let stepTag : Except Int (List Nat) :=
      if aad then
        let t := ops.ghash aes [] inb AES_GCM_AUTH_SZ
        match ops.encryptDirect aes (initalCounter ivb) with
        | Except.error e => Except.error e
        | Except.ok scratch => Except.ok (xorbuf t scratch AES_GCM_AUTH_SZ)
      else Except.ok atag
    match stepTag with
    | Except.error e => (e, [], false)
    | Except.ok tagHw =>
      let outB := ops.hwDecrypt aes ivb inb tagHw
      if aad then
        let t2 := ops.ghash aes (authIn.getD []) inb AES_GCM_AUTH_SZ
        match ops.encryptDirect aes (initalCounter ivb) with
        | Except.error e => (e, outB, false)
        | Except.ok scratch2 =>
          let tagSw := xorbuf t2 scratch2 AES_GCM_AUTH_SZ
          if ConstantCompare atag tagSw authTagSz ≠ 0 then
            (AES_GCM_AUTH_E, outB, true)
          else (0, outB, true)
      else (0, outB, false)

/-- Concrete instantiation of the external collaborators, used to evaluate
the embedded functions on closed inputs. -/
def trivialHwOps : HwOps where
  hwEncrypt := fun _ _ inb => inb ++ List.replicate 16 0
  hwDecrypt := fun _ _ inb _ => inb
  ghash := fun _ aad inb n => List.replicate n (aad.length + inb.length)
  encryptDirect := fun _ _ => Except.ok (List.replicate 16 1)

/-- Helper: when there is no additional authenticated data, wc_AesGcmDecrypt
never executes the software ConstantCompare, whatever the other arguments. -/
theorem wc_AesGcmDecrypt_no_aad_no_compare (ops : HwOps) (aes : Aes)
    (inBuf iv authTag authIn : Option (List Nat)) (ivSz authTagSz authInSz : Nat)
    (h : (authIn.isSome && decide (0 < authInSz)) = false) :
    (wc_AesGcmDecrypt ops aes inBuf iv ivSz authTag authTagSz authIn authInSz).2.2 = false := by
  unfold wc_AesGcmDecrypt
  split
  · rfl
  · split
    · rfl
    · simp [h]

/-- Claim C8: wc_AesGcmDecrypt performs the software tag comparison
(ConstantCompare, returning AES_GCM_AUTH_E when the recomputed tag differs
from the caller-supplied authTag) only when authIn is non-NULL and
authInSz > 0; a call with no additional authenticated data performs no
software tag comparison and, once argument validation passes, returns 0
after the hardware decrypt call regardless of the supplied tag. -/
theorem wc_AesGcmDecrypt_tag_compare (ops : HwOps) (aes : Aes)
    (inBuf iv authTag authIn : Option (List Nat)) (ivSz authTagSz authInSz : Nat)
    (inb ivb atag : List Nat) :
    ((wc_AesGcmDecrypt ops aes inBuf iv ivSz authTag authTagSz authIn authInSz).2.2 = true →
      authIn.isSome = true ∧ 0 < authInSz) ∧
    ((authIn.isSome = false ∨ authInSz = 0) → AES_GCM_AUTH_SZ ≤ authTagSz → ivSz = AEAD_NONCE_SZ →
      wc_AesGcmDecrypt ops aes (some inb) (some ivb) ivSz (some atag) authTagSz authIn authInSz
        = (0, ops.hwDecrypt aes ivb inb atag, false)) ∧
    (∀ aad sc, authIn = some aad → 0 < authInSz →
      AES_GCM_AUTH_SZ ≤ authTagSz → ivSz = AEAD_NONCE_SZ →
      ops.encryptDirect aes (initalCounter ivb) = Except.ok sc →
      ((wc_AesGcmDecrypt ops aes (some inb) (some ivb) ivSz (some atag) authTagSz authIn authInSz).1
          = AES_GCM_AUTH_E ↔
        ConstantCompare atag
          (xorbuf (ops.ghash aes aad inb AES_GCM_AUTH_SZ) sc AES_GCM_AUTH_SZ) authTagSz ≠ 0)) := by
  refine ⟨?_, ?_, ?_⟩
  · intro h
    by_cases haad : (authIn.isSome && decide (0 < authInSz)) = true
    · simp only [Bool.and_eq_true, decide_eq_true_eq] at haad
      exact haad
    · rw [Bool.not_eq_true] at haad
      rw [wc_AesGcmDecrypt_no_aad_no_compare ops aes inBuf iv authTag authIn ivSz authTagSz
        authInSz haad] at h
      exact absurd h (by decide)
  · intro hno htag hiv
    have haad : (authIn.isSome && decide (0 < authInSz)) = false := by
      rcases hno with h | h
      · simp [h]
      · simp [h]
    unfold wc_AesGcmDecrypt
    rw [if_neg, if_neg]
    · simp [haad]
    · simp [hiv]
    · simp [Nat.not_lt.mpr htag]
  · intro aad sc haad hsz htag hiv hdir
    subst haad
    have haadb : ((some aad : Option (List Nat)).isSome && decide (0 < authInSz)) = true := by
      simp [hsz]
    unfold wc_AesGcmDecrypt
    rw [if_neg, if_neg]
    · simp only [haadb, if_true, hdir, Option.getD_some]
      split
      · next hc => exact iff_of_true rfl hc
      · next hc => norm_num [AES_GCM_AUTH_E, hc]
    · simp [hiv]
    · simp only [Option.isNone_some, Bool.or_eq_true, decide_eq_true_eq, Bool.false_eq_true,
        false_or]
      exact Nat.not_lt.mpr htag

/-- Witness for the C8 theorem at concrete inputs: an AAD call that executes
the comparison, a no-AAD call returning 0 with no comparison, and the
AES_GCM_AUTH_E equivalence for an AAD call. -/
theorem wc_AesGcmDecrypt_tag_compare_witness :
    ((some [3] : Option (List Nat)).isSome = true ∧ 0 < 1) ∧
    (wc_AesGcmDecrypt trivialHwOps (Aes.mk 32 0 []) (some [1, 2]) (some (List.replicate 12 0)) 12
        (some (List.replicate 16 0)) 16 none 0
      = (0, trivialHwOps.hwDecrypt (Aes.mk 32 0 []) (List.replicate 12 0) [1, 2]
          (List.replicate 16 0), false)) ∧
    ((wc_AesGcmDecrypt trivialHwOps (Aes.mk 32 0 []) (some [1, 2]) (some (List.replicate 12 0)) 12
        (some (List.replicate 16 0)) 16 (some [3]) 1).1 = AES_GCM_AUTH_E ↔
      ConstantCompare (List.replicate 16 0)
        (xorbuf (trivialHwOps.ghash (Aes.mk 32 0 []) [3] [1, 2] AES_GCM_AUTH_SZ)
          (List.replicate 16 1) AES_GCM_AUTH_SZ) 16 ≠ 0) :=
  ⟨(wc_AesGcmDecrypt_tag_compare trivialHwOps (Aes.mk 32 0 []) (some [1, 2])
      (some (List.replicate 12 0)) (some (List.replicate 16 0)) (some [3]) 12 16 1
      [1, 2] (List.replicate 12 0) (List.replicate 16 0)).1 (by decide),
   (wc_AesGcmDecrypt_tag_compare trivialHwOps (Aes.mk 32 0 []) none none none none 12 16 0
      [1, 2] (List.replicate 12 0) (List.replicate 16 0)).2.1 (Or.inl rfl) (by decide) rfl,
   (wc_AesGcmDecrypt_tag_compare trivialHwOps (Aes.mk 32 0 []) none none none (some [3]) 12 16 1
      [1, 2] (List.replicate 12 0) (List.replicate 16 0)).2.2 [3] (List.replicate 16 1) rfl
      (by decide) (by decide) rfl rfl⟩

/-- Claim C9: wc_AesGcmEncrypt and wc_AesGcmDecrypt each return BAD_FUNC_ARG
whenever ivSz is not 12; encrypt rejects authTagSz above 16 and decrypt
rejects authTagSz below 16, so 16 is the only tag size both accept. -/
theorem wc_AesGcm_iv_tag_checks (ops : HwOps) (aes : Aes)
    (inBufE inBufD iv authTag0 authTag authIn : Option (List Nat))
    (ivSz authTagSz authInSz : Nat) (mallocOk : Bool) :
    (ivSz ≠ 12 →
      (wc_AesGcmEncrypt ops aes inBufE iv ivSz authTag0 authTagSz authIn mallocOk).1
        = BAD_FUNC_ARG) ∧
    (ivSz ≠ 12 →
      (wc_AesGcmDecrypt ops aes inBufD iv ivSz authTag authTagSz authIn authInSz).1
        = BAD_FUNC_ARG) ∧
    (AES_GCM_AUTH_SZ < authTagSz →
      (wc_AesGcmEncrypt ops aes inBufE iv ivSz authTag0 authTagSz authIn mallocOk).1
        = BAD_FUNC_ARG) ∧
    (authTagSz < AES_GCM_AUTH_SZ →
      (wc_AesGcmDecrypt ops aes inBufD iv ivSz authTag authTagSz authIn authInSz).1
        = BAD_FUNC_ARG) ∧
    ((wc_AesGcmEncrypt ops aes inBufE iv ivSz authTag0 authTagSz authIn mallocOk).1
        ≠ BAD_FUNC_ARG →
      (wc_AesGcmDecrypt ops aes inBufD iv ivSz authTag authTagSz authIn authInSz).1
        ≠ BAD_FUNC_ARG →
      authTagSz = AES_GCM_AUTH_SZ) := by
  have h1 : ivSz ≠ 12 →
      (wc_AesGcmEncrypt ops aes inBufE iv ivSz authTag0 authTagSz authIn mallocOk).1
        = BAD_FUNC_ARG := by
    intro h
    simp only [wc_AesGcmEncrypt]
    split
    · rfl
    · split
      · rfl
      · next hB => simp [AEAD_NONCE_SZ] at hB; exact absurd hB h
  have h2 : ivSz ≠ 12 →
      (wc_AesGcmDecrypt ops aes inBufD iv ivSz authTag authTagSz authIn authInSz).1
        = BAD_FUNC_ARG := by
    intro h
    simp only [wc_AesGcmDecrypt]
    split
    · rfl
    · split
      · rfl
      · next hB => simp [AEAD_NONCE_SZ] at hB; exact absurd hB h
  have h3 : AES_GCM_AUTH_SZ < authTagSz →
      (wc_AesGcmEncrypt ops aes inBufE iv ivSz authTag0 authTagSz authIn mallocOk).1
        = BAD_FUNC_ARG := by
    intro h
    simp only [wc_AesGcmEncrypt]
    split
    · rfl
    · next hA => exact absurd (by simp [h]) hA
  have h4 : authTagSz < AES_GCM_AUTH_SZ →
      (wc_AesGcmDecrypt ops aes inBufD iv ivSz authTag authTagSz authIn authInSz).1
        = BAD_FUNC_ARG := by
    intro h
    simp only [wc_AesGcmDecrypt]
    split
    · rfl
    · next hA => exact absurd (by simp [h]) hA
  refine ⟨h1, h2, h3, h4, ?_⟩
  intro he hd
  by_contra hne
  rcases Nat.lt_or_ge authTagSz AES_GCM_AUTH_SZ with hlt | hge
  · exact hd (h4 hlt)
  · exact he (h3 (Nat.lt_of_le_of_ne hge (Ne.symm hne)))

/-- Witness for the C9 theorem at concrete inputs. -/
theorem wc_AesGcm_iv_tag_checks_witness :
    ((wc_AesGcmEncrypt trivialHwOps (Aes.mk 32 0 []) (some [1]) (some (List.replicate 12 0)) 11
        (some (List.replicate 16 0)) 16 none true).1 = BAD_FUNC_ARG) ∧
    ((wc_AesGcmDecrypt trivialHwOps (Aes.mk 32 0 []) (some [1]) (some (List.replicate 12 0)) 11
        (some (List.replicate 16 0)) 16 none 0).1 = BAD_FUNC_ARG) ∧
    ((wc_AesGcmEncrypt trivialHwOps (Aes.mk 32 0 []) (some [1]) (some (List.replicate 12 0)) 12
        (some (List.replicate 16 0)) 17 none true).1 = BAD_FUNC_ARG) ∧
    ((wc_AesGcmDecrypt trivialHwOps (Aes.mk 32 0 []) (some [1]) (some (List.replicate 12 0)) 12
        (some (List.replicate 16 0)) 15 none 0).1 = BAD_FUNC_ARG) ∧
    (16 : Nat) = AES_GCM_AUTH_SZ :=
  ⟨(wc_AesGcm_iv_tag_checks trivialHwOps (Aes.mk 32 0 []) (some [1]) (some [1])
      (some (List.replicate 12 0)) (some (List.replicate 16 0)) (some (List.replicate 16 0))
      none 11 16 0 true).1 (by decide),
   (wc_AesGcm_iv_tag_checks trivialHwOps (Aes.mk 32 0 []) (some [1]) (some [1])
      (some (List.replicate 12 0)) (some (List.replicate 16 0)) (some (List.replicate 16 0))
      none 11 16 0 true).2.1 (by decide),
   (wc_AesGcm_iv_tag_checks trivialHwOps (Aes.mk 32 0 []) (some [1]) (some [1])
      (some (List.replicate 12 0)) (some (List.replicate 16 0)) (some (List.replicate 16 0))
      none 12 17 0 true).2.2.1 (by decide),
   (wc_AesGcm_iv_tag_checks trivialHwOps (Aes.mk 32 0 []) (some [1]) (some [1])
      (some (List.replicate 12 0)) (some (List.replicate 16 0)) (some (List.replicate 16 0))
      none 12 15 0 true).2.2.2.1 (by decide),
   (wc_AesGcm_iv_tag_checks trivialHwOps (Aes.mk 32 0 []) (some [1]) (some [1])
      (some (List.replicate 12 0)) (some (List.replicate 16 0)) (some (List.replicate 16 0))
      none 12 16 0 true).2.2.2.2 (by decide) (by decide)⟩

/-- Claim C10: wc_AesGcmSetKey_ex returns BAD_FUNC_ARG whenever aes is NULL,
key is NULL or len is not 32; on return value 0 it has set keylen to len,
kup to kup and copied exactly len key bytes into key_init. -/
theorem wc_AesGcmSetKey_ex_spec (aes : Option Aes) (key : Option (List Nat))
    (len kup : Nat) (lookupOk cfgOk : Bool) :
    ((aes = none ∨ key = none ∨ len ≠ 32) →
      (wc_AesGcmSetKey_ex aes key len kup lookupOk cfgOk).1 = BAD_FUNC_ARG) ∧
    ((wc_AesGcmSetKey_ex aes key len kup lookupOk cfgOk).1 = 0 →
      len = 32 ∧ ∃ a k a', aes = some a ∧ key = some k ∧
        (wc_AesGcmSetKey_ex aes key len kup lookupOk cfgOk).2 = some a' ∧
        a'.keylen = len ∧ a'.kup = kup ∧ a'.key_init = k.take len) := by
  constructor
  · rintro (rfl | rfl | h)
    · rfl
    · cases aes <;> rfl
    · cases aes with
      | none => rfl
      | some a =>
        cases key with
        | none => rfl
        | some k => simp [wc_AesGcmSetKey_ex, h]
  · intro h0
    cases aes with
    | none => exact absurd h0 (by norm_num [wc_AesGcmSetKey_ex, BAD_FUNC_ARG])
    | some a =>
      cases key with
      | none => exact absurd h0 (by norm_num [wc_AesGcmSetKey_ex, BAD_FUNC_ARG])
      | some k =>
        by_cases hlen : len = 32
        · cases lookupOk with
          | false => exact absurd h0 (by norm_num [wc_AesGcmSetKey_ex, hlen, MEMORY_E])
          | true =>
            cases cfgOk with
            | false => exact absurd h0 (by norm_num [wc_AesGcmSetKey_ex, hlen, MEMORY_E])
            | true =>
              refine ⟨hlen, a, k,
                { a with keylen := len, kup := kup, key_init := k.take len },
                rfl, rfl, ?_, rfl, rfl, rfl⟩
              simp [wc_AesGcmSetKey_ex, hlen]
        · exact absurd h0 (by norm_num [wc_AesGcmSetKey_ex, hlen, BAD_FUNC_ARG])

/-- Witness for the C10 theorem: a NULL-aes call rejected, and a successful
call whose final struct state is exposed by the theorem. -/
theorem wc_AesGcmSetKey_ex_spec_witness :
    ((wc_AesGcmSetKey_ex none (some [1]) 32 5 true true).1 = BAD_FUNC_ARG) ∧
    (32 = 32 ∧ ∃ a k a', (some (Aes.mk 0 0 []) : Option Aes) = some a ∧
      (some (List.replicate 32 7) : Option (List Nat)) = some k ∧
      (wc_AesGcmSetKey_ex (some (Aes.mk 0 0 [])) (some (List.replicate 32 7)) 32 5 true true).2
        = some a' ∧
      a'.keylen = 32 ∧ a'.kup = 5 ∧ a'.key_init = k.take 32) :=
  ⟨(wc_AesGcmSetKey_ex_spec none (some [1]) 32 5 true true).1 (Or.inl rfl),
   (wc_AesGcmSetKey_ex_spec (some (Aes.mk 0 0 [])) (some (List.replicate 32 7)) 32 5 true
      true).2 rfl⟩

/-- Modelled from the spec: a TCP segment fed to the Stream Reassembler
(`feed(direction, sequence_number, payload)`); the sniffer implementation
behind sniffer.h is not among the sampled sources. -/
structure Segment where
  seq : Nat
  payload : List Nat
deriving DecidableEq, Repr

/-- Modelled from the spec: the per-direction Reassembly Buffer state of the
missing sniffer implementation: a contiguous-through watermark, the bytes
already delivered to the TLS layer, the held out-of-order region (ordered by
sequence number), the configured held-region capacity, and the MissedData
counter. -/
structure ReState where
  watermark : Nat
  delivered : List Nat
  held : List Segment
  capacity : Nat
  missed : Nat
deriving DecidableEq, Repr

/-- Ordering of held segments by sequence number. -/
def seqLE (a b : Segment) : Prop := a.seq ≤ b.seq

instance : DecidableRel seqLE := fun a b => Nat.decLe a.seq b.seq

/-- Modelled from the spec: insertion of a buffered segment into the held
region, "ordered by sequence number". -/
def insertHeld (g : Segment) : List Segment → List Segment
  | [] => [g]
  | h :: t => if g.seq ≤ h.seq then g :: h :: t else h :: insertHeld g t

/-- Modelled from the spec: after the watermark advances, "any contiguous
out-of-order segments already held are delivered in sequence order"; each
held segment at or below the watermark contributes its novel suffix and is
removed.  Returns (watermark, delivered, remaining held). -/
def drain : Nat → List Nat → List Segment → Nat × List Nat × List Segment
  | w, d, [] => (w, d, [])
  | w, d, g :: t =>
    if g.seq ≤ w then
      drain (max w (g.seq + g.payload.length)) (d ++ g.payload.drop (w - g.seq)) t
    else (w, d, g :: t)

/-- Modelled from the spec: the Stream Reassembler `feed` operation of the
missing sniffer implementation.  A segment is accepted if its sequence
number is at most watermark + capacity, else dropped with a MissedData
count; a segment fully inside the delivered range is dropped (resend
tolerance); a segment reaching the watermark is truncated to its novel
suffix, delivered, and held contiguous segments are drained; a segment
above the watermark is buffered ordered by sequence number. -/
def feed (s : ReState) (g : Segment) : ReState :=
  if s.watermark + s.capacity < g.seq then
    { s with missed := s.missed + 1 }
  else if g.seq + g.payload.length ≤ s.watermark then
    s
  else if g.seq ≤ s.watermark then
    let p := g.payload.drop (s.watermark - g.seq)
    let r := drain (s.watermark + p.length) (s.delivered ++ p) s.held
    { s with watermark := r.1, delivered := r.2.1, held := r.2.2 }
  else
    { s with held := insertHeld g s.held }

/-- Modelled from the spec: feeding a list of segments in order. -/
def feedAll (s : ReState) (l : List Segment) : ReState :=
  l.foldl feed s

/-- Modelled from the spec: the initial Reassembly Buffer for one direction,
with a given held-region capacity; sequence numbers are taken relative to
the initial stream offset. -/
def initState (cap : Nat) : ReState :=
  { watermark := 0, delivered := [], held := [], capacity := cap, missed := 0 }

/-- A segment agrees with the underlying byte stream: its payload is the
slice of `full` starting at its sequence number. -/
def consistent (full : List Nat) (g : Segment) : Prop :=
  g.seq + g.payload.length ≤ full.length ∧
  g.payload = (full.drop g.seq).take g.payload.length

instance (full : List Nat) (g : Segment) : Decidable (consistent full g) :=
  instDecidableAnd

/-- Byte index `i` is covered by some segment of the list. -/
def coversByte (hs : List Segment) (i : Nat) : Prop :=
  ∃ g ∈ hs, g.seq ≤ i ∧ i < g.seq + g.payload.length

instance (hs : List Segment) (i : Nat) : Decidable (coversByte hs i) :=
  List.decidableBEx _ hs

/-- The drain step never lowers the watermark. -/
theorem drain_watermark_le (held : List Segment) : ∀ (w : Nat) (d : List Nat),
    w ≤ (drain w d held).1 := by
  induction held with
  | nil => intro w d; simp [drain]
  | cons g t ih =>
    intro w d
    simp only [drain]
    split
    · exact le_trans (le_max_left _ _) (ih _ _)
    · exact le_refl w

/-- Every segment left in the held region by drain was already held. -/
theorem drain_held_subset (held : List Segment) : ∀ (w : Nat) (d : List Nat)
    (x : Segment), x ∈ (drain w d held).2.2 → x ∈ held := by
  induction held with
  | nil => intro w d x hx; simp [drain] at hx
  | cons g t ih =>
    intro w d x hx
    simp only [drain] at hx
    split at hx
    · exact List.mem_cons_of_mem g (ih _ _ _ hx)
    · exact hx

/-- Membership in the ordered insertion. -/
theorem mem_insertHeld (g x : Segment) : ∀ (l : List Segment),
    (x ∈ insertHeld g l ↔ x = g ∨ x ∈ l) := by
  intro l
  induction l with
  | nil => simp [insertHeld]
  | cons h t ih =>
    simp only [insertHeld]
    split
    · simp [List.mem_cons]
    · simp only [List.mem_cons, ih]
      tauto

/-- Branch equation: a segment beyond watermark + capacity is dropped and
counted. -/
theorem feed_drop_eq (s : ReState) (g : Segment)
    (h1 : s.watermark + s.capacity < g.seq) :
    feed s g = { s with missed := s.missed + 1 } := by
  simp [feed, h1]

/-- Branch equation: a segment fully below the watermark is ignored. -/
theorem feed_covered_eq (s : ReState) (g : Segment)
    (h1 : ¬(s.watermark + s.capacity < g.seq))
    (h2 : g.seq + g.payload.length ≤ s.watermark) :
    feed s g = s := by
  simp [feed, h1, h2]

/-- Branch equation: a segment reaching the watermark is delivered (novel
suffix) and the held region drained. -/
theorem feed_deliver_eq (s : ReState) (g : Segment)
    (h1 : ¬(s.watermark + s.capacity < g.seq))
    (h2 : ¬(g.seq + g.payload.length ≤ s.watermark))
    (h3 : g.seq ≤ s.watermark) :
    feed s g = { s with
      watermark := (drain (s.watermark + (g.payload.drop (s.watermark - g.seq)).length)
        (s.delivered ++ g.payload.drop (s.watermark - g.seq)) s.held).1,
      delivered := (drain (s.watermark + (g.payload.drop (s.watermark - g.seq)).length)
        (s.delivered ++ g.payload.drop (s.watermark - g.seq)) s.held).2.1,
      held := (drain (s.watermark + (g.payload.drop (s.watermark - g.seq)).length)
        (s.delivered ++ g.payload.drop (s.watermark - g.seq)) s.held).2.2 } := by
  simp [feed, h1, h2, h3]

/-- Branch equation: a segment strictly above the watermark but within
capacity is buffered in sequence order. -/
theorem feed_buffer_eq (s : ReState) (g : Segment)
    (h1 : ¬(s.watermark + s.capacity < g.seq))
    (h3 : s.watermark < g.seq) :
    feed s g = { s with held := insertHeld g s.held } := by
  have h2 : ¬(g.seq + g.payload.length ≤ s.watermark) := by omega
  have h3' : ¬(g.seq ≤ s.watermark) := by omega
  simp [feed, h1, h2, h3']

/-- The feed operation never changes the configured capacity. -/
theorem feed_capacity (s : ReState) (g : Segment) :
    (feed s g).capacity = s.capacity := by
  simp only [feed]
  split
  · rfl
  · split
    · rfl
    · split
      · rfl
      · rfl

/-- The feed operation never lowers the watermark. -/
theorem feed_watermark_le (s : ReState) (g : Segment) :
    s.watermark ≤ (feed s g).watermark := by
  by_cases h1 : s.watermark + s.capacity < g.seq
  · rw [feed_drop_eq s g h1]
  · by_cases h2 : g.seq + g.payload.length ≤ s.watermark
    · rw [feed_covered_eq s g h1 h2]
    · by_cases h3 : g.seq ≤ s.watermark
      · rw [feed_deliver_eq s g h1 h2 h3]
        exact le_trans (Nat.le_add_right _ _) (drain_watermark_le s.held _ _)
      · rw [feed_buffer_eq s g h1 (by omega)]

/-- Claim C2: feeding the same TCP segment twice produces the same delivered
byte stream as feeding it once; a duplicate or retransmission never changes
the bytes delivered to the TLS layer. -/
theorem reassembler_feed_idempotent (s : ReState) (g : Segment) :
    (feed (feed s g) g).delivered = (feed s g).delivered := by
  by_cases h1 : s.watermark + s.capacity < g.seq
  · have e1 := feed_drop_eq s g h1
    have e2 : feed (feed s g) g = { feed s g with missed := (feed s g).missed + 1 } := by
      apply feed_drop_eq
      rw [e1]
      exact h1
    rw [e2]
  · by_cases h2 : g.seq + g.payload.length ≤ s.watermark
    · have e1 := feed_covered_eq s g h1 h2
      rw [e1, e1]
    · by_cases h3 : g.seq ≤ s.watermark
      · have hw : g.seq + g.payload.length ≤ (feed s g).watermark := by
          rw [feed_deliver_eq s g h1 h2 h3]
          have hd := drain_watermark_le s.held
            (s.watermark + (g.payload.drop (s.watermark - g.seq)).length)
            (s.delivered ++ g.payload.drop (s.watermark - g.seq))
          simp only [List.length_drop] at hd ⊢
          omega
        have e2 : feed (feed s g) g = feed s g :=
          feed_covered_eq (feed s g) g (by omega) hw
        rw [e2]
      · have e1 := feed_buffer_eq s g h1 (by omega)
        have e2 : feed (feed s g) g
            = { feed s g with held := insertHeld g (feed s g).held } := by
          apply feed_buffer_eq
          · rw [e1]; exact h1
          · rw [e1]; show s.watermark < g.seq; omega
        rw [e2]

/-- Modelled from the spec: the capacity bound on the held out-of-order
region: every held segment's sequence number is at most
watermark + capacity. -/
def heldWithinCapacity (s : ReState) : Prop :=
  ∀ g ∈ s.held, g.seq ≤ s.watermark + s.capacity

instance (s : ReState) : Decidable (heldWithinCapacity s) :=
  List.decidableBAll _ s.held

/-- Claim C3: a segment with sequence number beyond watermark + capacity is
discarded with the MissedData count incremented and no other state change,
and feed preserves the capacity bound on the held region. -/
theorem reassembler_capacity_bound (s : ReState) (g : Segment) :
    (s.watermark + s.capacity < g.seq →
      feed s g = { s with missed := s.missed + 1 }) ∧
    (heldWithinCapacity s → heldWithinCapacity (feed s g)) := by
  constructor
  · exact feed_drop_eq s g
  · intro hb
    by_cases h1 : s.watermark + s.capacity < g.seq
    · rw [feed_drop_eq s g h1]
      exact hb
    · by_cases h2 : g.seq + g.payload.length ≤ s.watermark
      · rw [feed_covered_eq s g h1 h2]
        exact hb
      · by_cases h3 : g.seq ≤ s.watermark
        · rw [feed_deliver_eq s g h1 h2 h3]
          intro x hx
          have hx' : x ∈ s.held := drain_held_subset s.held _ _ x hx
          have hwle := drain_watermark_le s.held
            (s.watermark + (g.payload.drop (s.watermark - g.seq)).length)
            (s.delivered ++ g.payload.drop (s.watermark - g.seq))
          have hb' := hb x hx'
          show x.seq ≤ (drain (s.watermark + (g.payload.drop (s.watermark - g.seq)).length)
            (s.delivered ++ g.payload.drop (s.watermark - g.seq)) s.held).1 + s.capacity
          omega
        · rw [feed_buffer_eq s g h1 (by omega)]
          intro x hx
          have hx2 : x ∈ insertHeld g s.held := hx
          rcases (mem_insertHeld g x s.held).mp hx2 with rfl | hx'
          · show x.seq ≤ s.watermark + s.capacity
            omega
          · exact hb x hx'

/-- Witness for the C3 theorem: a two-byte-capacity buffer drops a segment
at sequence number 5 and keeps its held region within capacity. -/
theorem reassembler_capacity_bound_witness :
    (feed (ReState.mk 0 [] [] 2 0) (Segment.mk 5 [9])
      = { ReState.mk 0 [] [] 2 0 with missed := (ReState.mk 0 [] [] 2 0).missed + 1 }) ∧
    heldWithinCapacity (feed (ReState.mk 0 [] [] 2 0) (Segment.mk 5 [9])) :=
  ⟨(reassembler_capacity_bound (ReState.mk 0 [] [] 2 0) (Segment.mk 5 [9])).1 (by decide),
   (reassembler_capacity_bound (ReState.mk 0 [] [] 2 0) (Segment.mk 5 [9])).2 (by decide)⟩

/-- Slice arithmetic: appending the novel suffix of a consistent segment to
the delivered prefix extends the prefix to the end of the segment. -/
theorem take_append_slice (l : List Nat) (q w n : Nat)
    (h1 : q + n ≤ l.length) (hq : q ≤ w) :
    l.take w ++ ((l.drop q).take n).drop (w - q) = l.take (max w (q + n)) := by
  rcases le_or_lt (q + n) w with hle | hlt
  · have hlen : ((l.drop q).take n).length ≤ w - q :=
      le_trans (List.length_take_le n (l.drop q)) (by omega)
    rw [List.drop_eq_nil_of_le hlen, List.append_nil, Nat.max_eq_left hle]
  · have e1 : ((l.drop q).take n).drop (w - q)
        = ((l.drop q).drop (w - q)).take (n - (w - q)) :=
      List.drop_take n (w - q) (l.drop q)
    have e2 : (l.drop q).drop (w - q) = l.drop w := by
      rw [List.drop_drop]
      congr 1
      omega
    have e3 : max w (q + n) = w + (n - (w - q)) := by omega
    rw [e1, e2, e3, List.take_add]

/-- Full specification of drain on a consistent, sorted held region whose
delivered prefix matches the underlying stream: the watermark does not pass
the stream end, delivered stays the watermark prefix, the remaining held
segments stay consistent, sorted and strictly above the watermark, and every
byte previously covered by delivered or held stays covered. -/
theorem drain_spec (full : List Nat) : ∀ (held : List Segment) (w : Nat),
    w ≤ full.length →
    (∀ g ∈ held, consistent full g) →
    List.Pairwise seqLE held →
    (drain w (full.take w) held).1 ≤ full.length ∧
    (drain w (full.take w) held).2.1 = full.take (drain w (full.take w) held).1 ∧
    (∀ g ∈ (drain w (full.take w) held).2.2, consistent full g) ∧
    (∀ g ∈ (drain w (full.take w) held).2.2, (drain w (full.take w) held).1 < g.seq) ∧
    List.Pairwise seqLE (drain w (full.take w) held).2.2 ∧
    (∀ i, (i < w ∨ coversByte held i) →
      (i < (drain w (full.take w) held).1 ∨
        coversByte (drain w (full.take w) held).2.2 i)) := by
  intro held
  induction held with
  | nil =>
    intro w hw hcons hsort
    simp only [drain]
    refine ⟨hw, by simp, by simp, by simp, List.Pairwise.nil, ?_⟩
    intro i hi
    rcases hi with hi | hi
    · exact Or.inl hi
    · rcases hi with ⟨x, hx, _⟩
      simp at hx
  | cons g t ih =>
    intro w hw hcons hsort
    have hg : consistent full g := hcons g (List.mem_cons_self g t)
    by_cases hle : g.seq ≤ w
    · have e : drain w (full.take w) (g :: t)
          = drain (max w (g.seq + g.payload.length))
              (full.take w ++ g.payload.drop (w - g.seq)) t := by
        simp [drain, hle]
      have hslice : full.take w ++ g.payload.drop (w - g.seq)
          = full.take (max w (g.seq + g.payload.length)) := by
        conv_lhs => rw [hg.2]
        exact take_append_slice full g.seq w g.payload.length hg.1 hle
      rw [e, hslice]
      have hW : max w (g.seq + g.payload.length) ≤ full.length :=
        Nat.max_le.mpr ⟨hw, hg.1⟩
      obtain ⟨d1, d2, d3, d4, d5, d6⟩ := ih (max w (g.seq + g.payload.length)) hW
        (fun x hx => hcons x (List.mem_cons_of_mem g hx)) hsort.of_cons
      refine ⟨d1, d2, d3, d4, d5, ?_⟩
      intro i hi
      apply d6
      rcases hi with hi | hi
      · exact Or.inl (lt_of_lt_of_le hi (le_max_left _ _))
      · rcases hi with ⟨x, hxmem, hx1, hx2⟩
        rcases List.mem_cons.mp hxmem with rfl | hxt
        · exact Or.inl (lt_of_lt_of_le hx2 (le_max_right _ _))
        · exact Or.inr ⟨x, hxt, hx1, hx2⟩
    · have e : drain w (full.take w) (g :: t) = (w, full.take w, g :: t) := by
        simp [drain, hle]
      rw [e]
      have habove : ∀ x ∈ g :: t, w < x.seq := by
        intro x hx
        rcases List.mem_cons.mp hx with rfl | hxt
        · omega
        · have hgx : seqLE g x := (List.pairwise_cons.mp hsort).1 x hxt
          simp only [seqLE] at hgx
          omega
      exact ⟨hw, rfl, hcons, habove, hsort, fun i hi => hi⟩

/-- Ordered insertion preserves sortedness of the held region. -/
theorem pairwise_insertHeld (g : Segment) : ∀ (l : List Segment),
    List.Pairwise seqLE l → List.Pairwise seqLE (insertHeld g l) := by
  intro l
  induction l with
  | nil => intro _; simp [insertHeld]
  | cons h t ih =>
    intro hp
    rcases List.pairwise_cons.mp hp with ⟨hht, hpt⟩
    simp only [insertHeld]
    split
    · next hgh =>
      apply List.pairwise_cons.mpr
      refine ⟨?_, hp⟩
      intro x hx
      rcases List.mem_cons.mp hx with rfl | hxt
      · exact hgh
      · exact le_trans hgh (hht x hxt)
    · next hgh =>
      apply List.pairwise_cons.mpr
      refine ⟨?_, ih hpt⟩
      intro x hx
      rcases (mem_insertHeld g x t).mp hx with rfl | hxt
      · show seqLE h x
        simp only [seqLE]
        omega
      · exact hht x hxt

/-- Invariant of the Reassembly Buffer relative to the underlying stream
`full` and the collection `fed` of segments fed so far: delivered is exactly
the watermark prefix of the stream, held segments are consistent, sorted and
strictly above the watermark, and every byte of a fed segment is either
already delivered or still covered by the held region. -/
structure ReInv (full : List Nat) (fed : List Segment) (s : ReState) : Prop where
  wm_le : s.watermark ≤ full.length
  deliv : s.delivered = full.take s.watermark
  held_cons : ∀ g ∈ s.held, consistent full g
  held_above : ∀ g ∈ s.held, s.watermark < g.seq
  held_sorted : List.Pairwise seqLE s.held
  cover : ∀ g ∈ fed, ∀ i, g.seq ≤ i → i < g.seq + g.payload.length →
    i < s.watermark ∨ coversByte s.held i

/-- One feed step preserves the Reassembly Buffer invariant when the new
segment is consistent with the stream and fits in the capacity. -/
theorem feed_ReInv (full : List Nat) (fed : List Segment) (s : ReState) (g : Segment)
    (hInv : ReInv full fed s) (hg : consistent full g) (hfit : g.seq ≤ s.capacity) :
    ReInv full (g :: fed) (feed s g) := by
  obtain ⟨hwm, hdel, hcons, habove, hsort, hcover⟩ := hInv
  have h1 : ¬(s.watermark + s.capacity < g.seq) := by omega
  by_cases h2 : g.seq + g.payload.length ≤ s.watermark
  · rw [feed_covered_eq s g h1 h2]
    refine ⟨hwm, hdel, hcons, habove, hsort, ?_⟩
    intro x hx i hi1 hi2
    rcases List.mem_cons.mp hx with rfl | hxf
    · exact Or.inl (by omega)
    · exact hcover x hxf i hi1 hi2
  · by_cases h3 : g.seq ≤ s.watermark
    · rw [feed_deliver_eq s g h1 h2 h3]
      have hw0 : s.watermark + (g.payload.drop (s.watermark - g.seq)).length
          = max s.watermark (g.seq + g.payload.length) := by
        simp only [List.length_drop]
        omega
      have hd0 : s.delivered ++ g.payload.drop (s.watermark - g.seq)
          = full.take (max s.watermark (g.seq + g.payload.length)) := by
        rw [hdel]
        conv_lhs => rw [hg.2]
        exact take_append_slice full g.seq s.watermark g.payload.length hg.1 h3
      rw [hw0, hd0]
      have hW : max s.watermark (g.seq + g.payload.length) ≤ full.length :=
        Nat.max_le.mpr ⟨hwm, hg.1⟩
      obtain ⟨d1, d2, d3, d4, d5, d6⟩ :=
        drain_spec full s.held (max s.watermark (g.seq + g.payload.length)) hW hcons hsort
      refine ⟨d1, d2, d3, d4, d5, ?_⟩
      intro x hx i hi1 hi2
      rcases List.mem_cons.mp hx with rfl | hxf
      · exact d6 i (Or.inl (by omega))
      · rcases hcover x hxf i hi1 hi2 with hlt | hcb
        · exact d6 i (Or.inl (by omega))
        · exact d6 i (Or.inr hcb)
    · have h3' : s.watermark < g.seq := by omega
      rw [feed_buffer_eq s g h1 h3']
      refine ⟨hwm, hdel, ?_, ?_, pairwise_insertHeld g s.held hsort, ?_⟩
      · intro x hx
        rcases (mem_insertHeld g x s.held).mp hx with rfl | hxt
        · exact hg
        · exact hcons x hxt
      · intro x hx
        rcases (mem_insertHeld g x s.held).mp hx with rfl | hxt
        · exact h3'
        · exact habove x hxt
      · intro x hx i hi1 hi2
        rcases List.mem_cons.mp hx with rfl | hxf
        · exact Or.inr ⟨x, (mem_insertHeld x x s.held).mpr (Or.inl rfl), hi1, hi2⟩
        · rcases hcover x hxf i hi1 hi2 with hlt | ⟨y, hy, hy1, hy2⟩
          · exact Or.inl hlt
          · exact Or.inr ⟨y, (mem_insertHeld g y s.held).mpr (Or.inr hy), hy1, hy2⟩

/-- Feeding a list of consistent, capacity-fitting segments preserves the
invariant, with the fed collection extended by that list (up to
membership). -/
theorem feedAll_ReInv (full : List Nat) : ∀ (l fed : List Segment) (s : ReState),
    ReInv full fed s →
    (∀ g ∈ l, consistent full g ∧ g.seq ≤ s.capacity) →
    ∃ fed', (∀ x, x ∈ fed' ↔ x ∈ l ++ fed) ∧ ReInv full fed' (feedAll s l) := by
  intro l
  induction l with
  | nil =>
    intro fed s hInv _
    exact ⟨fed, fun x => by simp, hInv⟩
  | cons g t ih =>
    intro fed s hInv hl
    have hg := hl g (List.mem_cons_self g t)
    have hstep := feed_ReInv full fed s g hInv hg.1 hg.2
    have hl' : ∀ x ∈ t, consistent full x ∧ x.seq ≤ (feed s g).capacity := by
      intro x hx
      rw [feed_capacity]
      exact hl x (List.mem_cons_of_mem g hx)
    obtain ⟨fed', hmem, hinv'⟩ := ih (g :: fed) (feed s g) hstep hl'
    refine ⟨fed', ?_, hinv'⟩
    intro x
    rw [hmem x]
    simp only [List.mem_cons, List.mem_append]
    tauto

/-- Completeness of the Reassembler: feeding any list of consistent segments
that covers the whole stream, in any order, with all sequence numbers within
the configured capacity, delivers exactly the underlying stream. -/
theorem feedAll_delivered_eq (full : List Nat) (cap : Nat) (l : List Segment)
    (hcons : ∀ g ∈ l, consistent full g) (hfit : ∀ g ∈ l, g.seq ≤ cap)
    (hcov : ∀ i, i < full.length → coversByte l i) :
    (feedAll (initState cap) l).delivered = full := by
  have hinit : ReInv full [] (initState cap) := by
    refine ⟨?_, ?_, ?_, ?_, ?_, ?_⟩ <;> simp [initState]
  obtain ⟨fed', hmem, hinv⟩ := feedAll_ReInv full l [] (initState cap) hinit
    (fun g hg => ⟨hcons g hg, hfit g hg⟩)
  obtain ⟨hwm, hdel, _, habove, _, hcover⟩ := hinv
  have hN : full.length ≤ (feedAll (initState cap) l).watermark := by
    by_contra hlt
    push_neg at hlt
    obtain ⟨x, hx, hx1, hx2⟩ := hcov _ hlt
    have hx' : x ∈ fed' := (hmem x).mpr (by simp [hx])
    rcases hcover x hx' _ hx1 hx2 with hlt2 | ⟨y, hy, hy1, hy2⟩
    · omega
    · have := habove y hy
      omega
  rw [hdel, le_antisymm hwm hN, List.take_length]

/-- Claim C1 (amended with the capacity proviso the counterexample forces):
for any complete, gap-free collection of segments of a stream whose sequence
numbers all lie within the configured held-region capacity, feeding any
permutation of the segments delivers the same byte stream as feeding them in
the original order, namely the full stream itself, each byte exactly once
and in order. -/
theorem reassembler_reorder_invariance (full : List Nat) (cap : Nat)
    (l l' : List Segment) (hperm : l'.Perm l)
    (hcons : ∀ g ∈ l, consistent full g) (hfit : ∀ g ∈ l, g.seq ≤ cap)
    (hcov : ∀ i, i < full.length → coversByte l i) :
    (feedAll (initState cap) l').delivered = (feedAll (initState cap) l).delivered ∧
    (feedAll (initState cap) l).delivered = full := by
  have h1 : (feedAll (initState cap) l).delivered = full :=
    feedAll_delivered_eq full cap l hcons hfit hcov
  have hcons' : ∀ g ∈ l', consistent full g := fun g hg => hcons g (hperm.mem_iff.mp hg)
  have hfit' : ∀ g ∈ l', g.seq ≤ cap := fun g hg => hfit g (hperm.mem_iff.mp hg)
  have hcov' : ∀ i, i < full.length → coversByte l' i := by
    intro i hi
    obtain ⟨x, hx, hx1, hx2⟩ := hcov i hi
    exact ⟨x, hperm.mem_iff.mpr hx, hx1, hx2⟩
  have h2 := feedAll_delivered_eq full cap l' hcons' hfit' hcov'
  exact ⟨h2.trans h1.symm, h1⟩

/-- Witness for the amended C1 theorem: a two-segment stream fed out of
order with ample capacity delivers the same full stream as in-order. -/
theorem reassembler_reorder_invariance_witness :
    (feedAll (initState 5) [Segment.mk 1 [8, 9], Segment.mk 0 [7]]).delivered
      = (feedAll (initState 5) [Segment.mk 0 [7], Segment.mk 1 [8, 9]]).delivered ∧
    (feedAll (initState 5) [Segment.mk 0 [7], Segment.mk 1 [8, 9]]).delivered = [7, 8, 9] :=
  reassembler_reorder_invariance [7, 8, 9] 5 [Segment.mk 0 [7], Segment.mk 1 [8, 9]]
    [Segment.mk 1 [8, 9], Segment.mk 0 [7]] (by decide) (by decide) (by decide) (by decide)

/-- Claim C1 as stated fails on the model: with held-region capacity 0, the
two segments [7] at 0 and [8] at 1 form a complete gap-free stream, yet the
permuted feed drops the out-of-order segment (beyond watermark + capacity)
and delivers fewer bytes than the in-order feed. -/
theorem reassembler_reorder_counterexample :
    List.Perm [Segment.mk 1 [8], Segment.mk 0 [7]] [Segment.mk 0 [7], Segment.mk 1 [8]] ∧
    (∀ g ∈ [Segment.mk 0 [7], Segment.mk 1 [8]], consistent [7, 8] g) ∧
    (∀ i, i < 2 → coversByte [Segment.mk 0 [7], Segment.mk 1 [8]] i) ∧
    (feedAll (initState 0) [Segment.mk 1 [8], Segment.mk 0 [7]]).delivered
      ≠ (feedAll (initState 0) [Segment.mk 0 [7], Segment.mk 1 [8]]).delivered := by
  decide

/-- Modelled from the spec: a Session Table entry of the missing sniffer
implementation, reduced to the fields the Recovery Policy reads: identity,
last-activity timestamp and accounted memory usage. -/
structure Session where
  ident : Nat
  lastActivity : Nat
  usage : Nat
deriving DecidableEq, Repr

/-- Modelled from the spec: the running total of memory accounted to the
sessions of a table. -/
def sumUsage (l : List Session) : Nat := (l.map Session.usage).sum

/-- Idleness order on sessions: oldest last-activity timestamp first. -/
def idleLE (a b : Session) : Prop := a.lastActivity ≤ b.lastActivity

instance : DecidableRel idleLE := fun a b => Nat.decLe a.lastActivity b.lastActivity

/-- Modelled from the spec: insertion of a session into an idleness-ordered
list (oldest first). -/
def insertIdle (a : Session) : List Session → List Session
  | [] => [a]
  | h :: t => if a.lastActivity ≤ h.lastActivity then a :: h :: t else h :: insertIdle a t

/-- Modelled from the spec: the table ordered by idleness, oldest first. -/
def sortIdle (l : List Session) : List Session := l.foldr insertIdle []

/-- Modelled from the spec: evicting the most idle sessions from the front
of the idleness-ordered table while usage exceeds the ceiling. -/
def evictLoop (ceiling : Nat) : List Session → List Session
  | [] => []
  | x :: t => if ceiling < sumUsage (x :: t) then evictLoop ceiling t else x :: t

/-- Modelled from the spec: `evictIfOverBudget()` of the Session Table and
Recovery Policy of the missing sniffer implementation (spec section 4.3):
when the ceiling is exceeded, eviction selects sessions by idleness, oldest
last-activity timestamp first, until usage returns under budget. -/
def evictIfOverBudget (ceiling : Nat) (table : List Session) : List Session :=
  evictLoop ceiling (sortIdle table)

/-- Ordered insertion produces a permutation of pushing in front. -/
theorem perm_insertIdle (a : Session) : ∀ l : List Session,
    (insertIdle a l).Perm (a :: l) := by
  intro l
  induction l with
  | nil => simp [insertIdle]
  | cons h t ih =>
    simp only [insertIdle]
    split
    · exact List.Perm.refl _
    · exact (ih.cons h).trans (List.Perm.swap a h t)

/-- Sorting by idleness permutes the table. -/
theorem sortIdle_perm : ∀ l : List Session, (sortIdle l).Perm l := by
  intro l
  induction l with
  | nil => simp [sortIdle]
  | cons h t ih =>
    exact (perm_insertIdle h (sortIdle t)).trans (ih.cons h)

/-- Membership in the idleness insertion. -/
theorem mem_insertIdle (a x : Session) : ∀ l : List Session,
    (x ∈ insertIdle a l ↔ x = a ∨ x ∈ l) := by
  intro l
  induction l with
  | nil => simp [insertIdle]
  | cons h t ih =>
    simp only [insertIdle]
    split
    · simp [List.mem_cons]
    · simp only [List.mem_cons, ih]
      tauto

/-- Idleness insertion preserves sortedness. -/
theorem pairwise_insertIdle (a : Session) : ∀ l : List Session,
    List.Pairwise idleLE l → List.Pairwise idleLE (insertIdle a l) := by
  intro l
  induction l with
  | nil => intro _; simp [insertIdle]
  | cons h t ih =>
    intro hp
    rcases List.pairwise_cons.mp hp with ⟨hht, hpt⟩
    simp only [insertIdle]
    split
    · next hah =>
      apply List.pairwise_cons.mpr
      refine ⟨?_, hp⟩
      intro x hx
      rcases List.mem_cons.mp hx with rfl | hxt
      · exact hah
      · exact le_trans hah (hht x hxt)
    · next hah =>
      apply List.pairwise_cons.mpr
      refine ⟨?_, ih hpt⟩
      intro x hx
      rcases (mem_insertIdle a x t).mp hx with rfl | hxt
      · show idleLE h x
        simp only [idleLE]
        omega
      · exact hht x hxt

/-- The idleness sort is sorted, oldest first. -/
theorem sortIdle_sorted : ∀ l : List Session, List.Pairwise idleLE (sortIdle l) := by
  intro l
  induction l with
  | nil => simp [sortIdle]
  | cons h t ih => exact pairwise_insertIdle h (sortIdle t) ih

/-- The eviction loop always ends at or under the ceiling. -/
theorem evictLoop_le (ceiling : Nat) : ∀ l : List Session,
    sumUsage (evictLoop ceiling l) ≤ ceiling := by
  intro l
  induction l with
  | nil => simp [evictLoop, sumUsage]
  | cons x t ih =>
    simp only [evictLoop]
    split
    · exact ih
    · next h => exact Nat.le_of_not_lt h

/-- The eviction loop removes exactly a minimal prefix: the survivors are a
suffix, and every strictly larger suffix is still over the ceiling. -/
theorem evictLoop_drop (ceiling : Nat) : ∀ l : List Session,
    ∃ k, evictLoop ceiling l = l.drop k ∧
      ∀ j, j < k → ceiling < sumUsage (l.drop j) := by
  intro l
  induction l with
  | nil => exact ⟨0, rfl, fun j hj => absurd hj (Nat.not_lt_zero j)⟩
  | cons x t ih =>
    by_cases h : ceiling < sumUsage (x :: t)
    · obtain ⟨k, hk, hj⟩ := ih
      refine ⟨k + 1, ?_, ?_⟩
      · simp only [evictLoop, if_pos h]
        exact hk
      · intro j hjk
        cases j with
        | zero => simpa using h
        | succ j' => exact hj j' (by omega)
    · refine ⟨0, ?_, fun j hj => absurd hj (Nat.not_lt_zero j)⟩
      simp [evictLoop, h]

/-- Claim C4: for a Session Table whose combined usage exceeds the ceiling,
after evictIfOverBudget the usage is at most the ceiling, and the evicted
sessions are exactly the least-recently-active ones (a minimal prefix of
the table ordered by oldest last-activity first) needed to reach the
bound. -/
theorem evictIfOverBudget_correct (ceiling : Nat) (table : List Session)
    (hover : ceiling < sumUsage table) :
    sumUsage (evictIfOverBudget ceiling table) ≤ ceiling ∧
    (sortIdle table).Perm table ∧
    List.Pairwise idleLE (sortIdle table) ∧
    ∃ k, evictIfOverBudget ceiling table = (sortIdle table).drop k ∧
      ∀ j, j < k → ceiling < sumUsage ((sortIdle table).drop j) :=
  ⟨evictLoop_le ceiling (sortIdle table), sortIdle_perm table, sortIdle_sorted table,
    evictLoop_drop ceiling (sortIdle table)⟩

/-- Witness for the C4 theorem: two sessions of usage 4 against a ceiling of
5; the older session (last activity 3) is evicted, usage drops to 4. -/
theorem evictIfOverBudget_correct_witness :
    sumUsage (evictIfOverBudget 5 [Session.mk 1 10 4, Session.mk 2 3 4]) ≤ 5 ∧
    (sortIdle [Session.mk 1 10 4, Session.mk 2 3 4]).Perm
      [Session.mk 1 10 4, Session.mk 2 3 4] ∧
    List.Pairwise idleLE (sortIdle [Session.mk 1 10 4, Session.mk 2 3 4]) ∧
    ∃ k, evictIfOverBudget 5 [Session.mk 1 10 4, Session.mk 2 3 4]
        = (sortIdle [Session.mk 1 10 4, Session.mk 2 3 4]).drop k ∧
      ∀ j, j < k → 5 < sumUsage ((sortIdle [Session.mk 1 10 4, Session.mk 2 3 4]).drop j) :=
  evictIfOverBudget_correct 5 [Session.mk 1 10 4, Session.mk 2 3 4] (by decide)

/-- Modelled from the spec: a Key Record of the missing sniffer key store;
its content (key bytes and type) is opaque to resolution. -/
structure KeyRecord where
  keyData : List Nat
  typeK : Nat
deriving DecidableEq, Repr

/-- Modelled from the spec: the Key Store of the missing sniffer
implementation: named-scope records (name, address, port) installed via
ssl_SetNamedPrivateKey, address:port records installed via
ssl_SetPrivateKey, an optional certificate-hash watch callback and an
optional ephemeral-key callback.  Addresses and names are abstract
identifiers. -/
structure KeyStore where
  namedKeys : List ((Nat × Nat × Nat) × KeyRecord)
  addrKeys : List ((Nat × Nat) × KeyRecord)
  watchCb : Option (List Nat → Option KeyRecord)
  ephemeralCb : Option (Nat → List Nat → List Nat → Option KeyRecord)

/-- Lookup of an exact named scope record. -/
def findNamed (ks : KeyStore) (name addr port : Nat) : Option KeyRecord :=
  (ks.namedKeys.find? (fun e => decide (e.1 = (name, addr, port)))).map Prod.snd

/-- Lookup of an address:port scope record. -/
def findAddr (ks : KeyStore) (addr port : Nat) : Option KeyRecord :=
  (ks.addrKeys.find? (fun e => decide (e.1 = (addr, port)))).map Prod.snd

/-- Modelled from the spec: key resolution for an observed handshake in the
missing sniffer implementation, in the spec's resolution order: exact named
scope, then address:port scope, then certificate-hash watch callback, then
ephemeral-key callback. -/
def resolveKey (ks : KeyStore) (name : Option Nat) (addr port : Nat)
    (certHash : List Nat) (group : Nat) (srvPub cliPub : List Nat) : Option KeyRecord :=
  match name.bind (fun n => findNamed ks n addr port) with
  | some r => some r
  | none =>
    match findAddr ks addr port with
    | some r => some r
    | none =>
      match ks.watchCb.bind (fun cb => cb certHash) with
      | some r => some r
      | none => ks.ephemeralCb.bind (fun cb => cb group srvPub cliPub)

/-- Claim C5: when a named scope record matches, resolution returns it, even
when an address:port record also matches; otherwise resolution falls back,
in order, to the address:port scope, the certificate-hash watch callback and
the ephemeral-key callback. -/
theorem resolveKey_priority (ks : KeyStore) (name : Option Nat) (addr port : Nat)
    (certHash : List Nat) (group : Nat) (srvPub cliPub : List Nat) :
    (∀ n r, name = some n → findNamed ks n addr port = some r →
      resolveKey ks name addr port certHash group srvPub cliPub = some r) ∧
    (name.bind (fun n => findNamed ks n addr port) = none →
      ∀ r, findAddr ks addr port = some r →
        resolveKey ks name addr port certHash group srvPub cliPub = some r) ∧
    (name.bind (fun n => findNamed ks n addr port) = none →
      findAddr ks addr port = none →
      ∀ r, ks.watchCb.bind (fun cb => cb certHash) = some r →
        resolveKey ks name addr port certHash group srvPub cliPub = some r) ∧
    (name.bind (fun n => findNamed ks n addr port) = none →
      findAddr ks addr port = none →
      ks.watchCb.bind (fun cb => cb certHash) = none →
      resolveKey ks name addr port certHash group srvPub cliPub
        = ks.ephemeralCb.bind (fun cb => cb group srvPub cliPub)) := by
  refine ⟨?_, ?_, ?_, ?_⟩
  · intro n r hn hr
    subst hn
    simp [resolveKey, hr]
  · intro h0 r hr
    simp [resolveKey, h0, hr]
  · intro h0 h1 r hr
    simp [resolveKey, h0, h1, hr]
  · intro h0 h1 h2
    simp [resolveKey, h0, h1, h2]

/-- Key store with both a named record for (name 1, address 2, port 443) and
a plain record for (address 2, port 443), for evaluating resolution. -/
def ksNamedAddr : KeyStore :=
  { namedKeys := [((1, 2, 443), KeyRecord.mk [10] 1)],
    addrKeys := [((2, 443), KeyRecord.mk [20] 1)],
    watchCb := none, ephemeralCb := none }

/-- Key store with only an address:port record. -/
def ksAddrOnly : KeyStore :=
  { namedKeys := [], addrKeys := [((2, 443), KeyRecord.mk [20] 1)],
    watchCb := none, ephemeralCb := none }

/-- Key store with only a watch callback. -/
def ksWatchOnly : KeyStore :=
  { namedKeys := [], addrKeys := [],
    watchCb := some (fun _ => some (KeyRecord.mk [30] 2)), ephemeralCb := none }

/-- Key store with only an ephemeral-key callback. -/
def ksEphOnly : KeyStore :=
  { namedKeys := [], addrKeys := [],
    watchCb := none, ephemeralCb := some (fun _ _ _ => some (KeyRecord.mk [40] 3)) }

/-- Witness for the C5 theorem: with both a named and a plain address:port
record installed, resolution returns the named one; the other fallbacks are
exercised on stores holding only the later-priority entries. -/
theorem resolveKey_priority_witness :
    resolveKey ksNamedAddr (some 1) 2 443 [] 0 [] [] = some (KeyRecord.mk [10] 1) ∧
    resolveKey ksAddrOnly (some 1) 2 443 [] 0 [] [] = some (KeyRecord.mk [20] 1) ∧
    resolveKey ksWatchOnly (some 1) 2 443 [7] 0 [] [] = some (KeyRecord.mk [30] 2) ∧
    resolveKey ksEphOnly (some 1) 2 443 [7] 29 [5] [6]
      = ksEphOnly.ephemeralCb.bind (fun cb => cb 29 [5] [6]) :=
  ⟨(resolveKey_priority ksNamedAddr (some 1) 2 443 [] 0 [] []).1 1
      (KeyRecord.mk [10] 1) rfl rfl,
   (resolveKey_priority ksAddrOnly (some 1) 2 443 [] 0 [] []).2.1 rfl
      (KeyRecord.mk [20] 1) rfl,
   (resolveKey_priority ksWatchOnly (some 1) 2 443 [7] 0 [] []).2.2.1 rfl rfl
      (KeyRecord.mk [30] 2) rfl,
   (resolveKey_priority ksEphOnly (some 1) 2 443 [7] 29 [5] [6]).2.2.2 rfl rfl rfl⟩

/-- Modelled from the spec: one telemetry event of the missing sniffer
implementation: an increment of one of the SSLStats counters (the index
names one of the fixed counters of sniffer.h's SSLStats) or the atomic
read-and-reset operation (ssl_ReadResetStatistics). -/
inductive StatOp where
  | inc (i : Nat)
  | readReset
deriving DecidableEq, Repr

/-- Modelled from the spec: one atomic telemetry operation applied to the
counter state and the log of snapshots already returned: an increment bumps
one counter; read-and-reset returns (logs) the current counters and zeroes
them in the same atomic step. -/
def statStep : ((Nat → Nat) × List (Nat → Nat)) → StatOp → ((Nat → Nat) × List (Nat → Nat))
  | (c, snaps), StatOp.inc i => (fun j => if j = i then c j + 1 else c j, snaps)
  | (c, snaps), StatOp.readReset => (fun _ => 0, snaps ++ [c])

/-- Modelled from the spec: running a sequence of telemetry operations from
a given state; an interleaving of concurrent atomic operations is an
arbitrary sequential order of this kind. -/
def runStatsFrom (st : (Nat → Nat) × List (Nat → Nat)) (ops : List StatOp) :
    (Nat → Nat) × List (Nat → Nat) :=
  ops.foldl statStep st

/-- Modelled from the spec: running from all-zero counters with no
snapshots taken yet. -/
def runStats (ops : List StatOp) : (Nat → Nat) × List (Nat → Nat) :=
  runStatsFrom (fun _ => 0, []) ops

/-- Number of qualifying events for counter `i` in an operation sequence. -/
def countInc (i : Nat) (ops : List StatOp) : Nat :=
  ops.countP (fun o => decide (o = StatOp.inc i))

/-- Conservation: for each counter, the values returned by the resets plus
the live counter equal the starting amount plus the number of increments. -/
theorem runStatsFrom_conservation (i : Nat) : ∀ (ops : List StatOp)
    (c : Nat → Nat) (snaps : List (Nat → Nat)),
    ((runStatsFrom (c, snaps) ops).2.map (fun f => f i)).sum
        + (runStatsFrom (c, snaps) ops).1 i
      = (snaps.map (fun f => f i)).sum + c i + countInc i ops := by
  intro ops
  induction ops with
  | nil => intro c snaps; simp [runStatsFrom, countInc]
  | cons o t ih =>
    intro c snaps
    cases o with
    | inc j =>
      have e : runStatsFrom (c, snaps) (StatOp.inc j :: t)
          = runStatsFrom ((fun m => if m = j then c m + 1 else c m), snaps) t := rfl
      rw [e, ih]
      by_cases hij : i = j
      · subst hij
        simp [countInc, List.countP_cons]
        ring
      · simp [countInc, List.countP_cons, StatOp.inc.injEq, hij, Ne.symm hij]
    | readReset =>
      have e : runStatsFrom (c, snaps) (StatOp.readReset :: t)
          = runStatsFrom ((fun _ => 0), snaps ++ [c]) t := rfl
      rw [e, ih]
      simp [countInc, List.countP_cons]

/-- With no reset in the sequence, each counter is non-decreasing. -/
theorem runStatsFrom_mono (i : Nat) : ∀ (ops : List StatOp)
    (st : (Nat → Nat) × List (Nat → Nat)),
    (∀ o ∈ ops, o ≠ StatOp.readReset) →
    st.1 i ≤ (runStatsFrom st ops).1 i := by
  intro ops
  induction ops with
  | nil => intro st _; exact le_refl _
  | cons o t ih =>
    intro st hno
    cases o with
    | inc j =>
      have step := ih (statStep st (StatOp.inc j))
        (fun o ho => hno o (List.mem_cons_of_mem _ ho))
      refine le_trans ?_ step
      cases st with
      | mk c snaps =>
        simp only [statStep]
        by_cases hij : i = j
        · subst hij; simp
        · simp [hij]
    | readReset => exact absurd rfl (hno _ (List.mem_cons_self _ _))

/-- Splitting a run at a prefix. -/
theorem runStats_append (ops1 ops2 : List StatOp) :
    runStats (ops1 ++ ops2) = runStatsFrom (runStats ops1) ops2 := by
  simp [runStats, runStatsFrom, List.foldl_append]

/-- Claim C6: between resets every counter is monotonically non-decreasing
and counts exactly one per qualifying event; the read-and-reset snapshots
are exact and atomic: for every counter, the returned snapshots plus the
live counter account for every increment exactly once, over any sequential
interleaving of the atomic operations. -/
theorem stats_monotone_atomic_reset :
    (∀ (ops1 ops2 : List StatOp) (i : Nat), (∀ o ∈ ops2, o ≠ StatOp.readReset) →
      (runStats ops1).1 i ≤ (runStats (ops1 ++ ops2)).1 i) ∧
    (∀ (ops : List StatOp) (i : Nat),
      ((runStats ops).2.map (fun f => f i)).sum + (runStats ops).1 i = countInc i ops) := by
  constructor
  · intro ops1 ops2 i hno
    rw [runStats_append]
    exact runStatsFrom_mono i ops2 (runStats ops1) hno
  · intro ops i
    have h := runStatsFrom_conservation i ops (fun _ => 0) []
    simpa [runStats] using h

/-- Witness for the C6 theorem at a concrete operation sequence containing
increments and one reset. -/
theorem stats_monotone_atomic_reset_witness :
    (runStats [StatOp.inc 2]).1 2
      ≤ (runStats ([StatOp.inc 2] ++ [StatOp.inc 2, StatOp.inc 5])).1 2 ∧
    ((runStats [StatOp.inc 2, StatOp.readReset, StatOp.inc 2]).2.map (fun f => f 2)).sum
        + (runStats [StatOp.inc 2, StatOp.readReset, StatOp.inc 2]).1 2
      = countInc 2 [StatOp.inc 2, StatOp.readReset, StatOp.inc 2] :=
  ⟨stats_monotone_atomic_reset.1 [StatOp.inc 2] [StatOp.inc 2, StatOp.inc 5] 2 (by decide),
   stats_monotone_atomic_reset.2 [StatOp.inc 2, StatOp.readReset, StatOp.inc 2] 2⟩

/-- Modelled from the spec: the buffered-return decode mode of the missing
sniffer implementation: the decrypted records of a session concatenated
into one returned buffer. -/
def bufferedOutput (recs : List (List Nat)) : List Nat := recs.flatten

/-- Modelled from the spec: the per-session store-data delivery mode of the
missing sniffer implementation (SSLStoreDataCb as declared in sniffer.h,
driven by ssl_DecodePacketWithSessionInfoStoreData): each decrypted record
is passed to the callback together with its byte offset within the
session's decrypted stream. -/
def streamEvents : Nat → List (List Nat) → List (List Nat × Nat)
  | _, [] => []
  | off, r :: t => (r, off) :: streamEvents (off + r.length) t

/-- The chunks passed to the store-data callback are exactly the decrypted
records in order. -/
theorem streamEvents_map_fst (recs : List (List Nat)) : ∀ off,
    (streamEvents off recs).map Prod.fst = recs := by
  induction recs with
  | nil => intro off; rfl
  | cons r t ih => intro off; simp [streamEvents, ih]

/-- Each store-data event's offset is the base offset plus the bytes
streamed before it. -/
theorem streamEvents_get_offset (recs : List (List Nat)) : ∀ (off k : Nat)
    (h : k < (streamEvents off recs).length),
    ((streamEvents off recs).get ⟨k, h⟩).2
      = off + (((streamEvents off recs).take k).map Prod.fst).flatten.length := by
  induction recs with
  | nil => intro off k h; simp [streamEvents] at h
  | cons r t ih =>
    intro off k h
    cases k with
    | zero => simp [streamEvents]
    | succ k' =>
      have h' : k' < (streamEvents (off + r.length) t).length := by
        simpa [streamEvents] using h
      simp only [streamEvents, List.get_cons_succ, List.take_succ_cons, List.map_cons,
        List.flatten_cons, List.length_append]
      rw [ih (off + r.length) k' h']
      omega

/-- Claim C7: the store-data streaming delivery and the buffered return
produce byte-identical plaintext: the streamed chunks concatenated in
emission order equal the buffered output, and each chunk's reported offset
equals the number of bytes delivered before it, so concatenating the chunks
in offset order gives the same bytes. -/
theorem storeData_equiv_buffered (recs : List (List Nat)) :
    ((streamEvents 0 recs).map Prod.fst).flatten = bufferedOutput recs ∧
    (∀ (k : Nat) (h : k < (streamEvents 0 recs).length),
      ((streamEvents 0 recs).get ⟨k, h⟩).2
        = (((streamEvents 0 recs).take k).map Prod.fst).flatten.length) := by
  constructor
  · rw [streamEvents_map_fst recs 0]; rfl
  · intro k h
    have h2 := streamEvents_get_offset recs 0 k h
    simpa using h2

/-- Witness for the C7 theorem on a three-record session (one record
empty). -/
theorem storeData_equiv_buffered_witness :
    ((streamEvents 0 [[1, 2], [], [3]]).map Prod.fst).flatten
      = bufferedOutput [[1, 2], [], [3]] ∧
    ((streamEvents 0 [[1, 2], [], [3]]).get ⟨2, by decide⟩).2
      = (((streamEvents 0 [[1, 2], [], [3]]).take 2).map Prod.fst).flatten.length :=
  ⟨(storeData_equiv_buffered [[1, 2], [], [3]]).1,
   (storeData_equiv_buffered [[1, 2], [], [3]]).2 2 (by decide)⟩
